import Mathlib

/-!
Verification development for the osm-rels-svg renderer (src/src/main.rs).

The Rust source is shallowly embedded below:
* geographic coordinates (degrees) are modelled as rationals (`ℚ`); the
  program obtains them from fixed-point decimicro-degree integers, so every
  coordinate the program ever sees is an exact rational;
* the planar projection `project` works over the reals (`ℝ`), since it uses
  `tan`/`ln`;
* Rust's `Range<f64>` (fields `start`/`end`) is modelled by `QRange` with
  fields `start`/`stop` (`end` is a Lean keyword);
* the stderr diagnostics (`eprintln!`) are modelled as an explicit list of
  `Diag` values threaded through the render functions;
* the unbounded recursion of `relation_to_group` is modelled with an explicit
  fuel parameter: `none` means the recursion did not complete within the
  given fuel.
-/

namespace OsmSvg

/-- Models Rust's `Range<f64>` as used by `Bound`: `start` and `stop`
correspond to the Rust fields `start` and `end`. -/
structure QRange where
  start : ℚ
  stop : ℚ
deriving DecidableEq

/-- Struct `Bound` from main.rs lines 35-39: a latitude range and a longitude
range. -/
structure Bound where
  lat : QRange
  lon : QRange
deriving DecidableEq

/-- Constructor `Bound::new` (main.rs lines 41-46): the sentinel `0..0, 0..0`. -/
def Bound.new : Bound := ⟨⟨0, 0⟩, ⟨0, 0⟩⟩

/-- Method `Bound::is_empty` (main.rs lines 47-49): structural equality with the
freshly created bound. -/
def Bound.is_empty (b : Bound) : Bool := decide (b = Bound.new)

/-- Method `Bound::update` (main.rs lines 50-62).  The point `p` is
`(node.lat(), node.lon())`. -/
def Bound.update (b : Bound) (p : ℚ × ℚ) : Bound :=
  if b.is_empty then
    ⟨⟨p.1, p.1⟩, ⟨p.2, p.2⟩⟩
  else
    ⟨⟨min b.lat.start p.1, max b.lat.stop p.1⟩,
     ⟨min b.lon.start p.2, max b.lon.stop p.2⟩⟩

/-- The point `p` lies inside the rectangle `b`. -/
def Bound.contains (b : Bound) (p : ℚ × ℚ) : Prop :=
  b.lat.start ≤ p.1 ∧ p.1 ≤ b.lat.stop ∧ b.lon.start ≤ p.2 ∧ p.2 ≤ b.lon.stop

instance (b : Bound) (p : ℚ × ℚ) : Decidable (b.contains p) := by
  unfold Bound.contains; infer_instance

/-- The rectangle `b` lies inside the rectangle `r` (component-wise). -/
def Bound.inside (b r : Bound) : Prop :=
  r.lat.start ≤ b.lat.start ∧ b.lat.stop ≤ r.lat.stop ∧
  r.lon.start ≤ b.lon.start ∧ b.lon.stop ≤ r.lon.stop

/-- Both ranges of the rectangle are ordered. -/
def Bound.ordered (b : Bound) : Prop :=
  b.lat.start ≤ b.lat.stop ∧ b.lon.start ≤ b.lon.stop

lemma Bound.inside_refl (b : Bound) : b.inside b :=
  ⟨le_refl _, le_refl _, le_refl _, le_refl _⟩

lemma Bound.inside_trans {a b c : Bound} (h1 : a.inside b) (h2 : b.inside c) :
    a.inside c :=
  ⟨le_trans h2.1 h1.1, le_trans h1.2.1 h2.2.1,
   le_trans h2.2.2.1 h1.2.2.1, le_trans h1.2.2.2 h2.2.2.2⟩

lemma Bound.contains_of_inside {b r : Bound} {p : ℚ × ℚ}
    (h : b.inside r) (hc : b.contains p) : r.contains p :=
  ⟨le_trans h.1 hc.1, le_trans hc.2.1 h.2.1,
   le_trans h.2.2.1 hc.2.2.1, le_trans hc.2.2.2 h.2.2.2⟩

/-- Updating a non-empty ordered bound never returns to the sentinel state,
keeps the ranges ordered, widens the rectangle, and absorbs the new point. -/
lemma Bound.update_nonempty {b : Bound} (p : ℚ × ℚ)
    (hne : b ≠ Bound.new) (hord : b.ordered) :
    b.update p ≠ Bound.new ∧ (b.update p).ordered ∧
    b.inside (b.update p) ∧ (b.update p).contains p := by
  have hemp : b.is_empty = false := by
    simp [Bound.is_empty, hne]
  refine ⟨?_, ?_, ?_, ?_⟩
  · intro h
    simp only [Bound.update, hemp, Bool.false_eq_true, if_false] at h
    apply hne
    have h1 := congrArg (fun x => x.lat.start) h
    have h2 := congrArg (fun x => x.lat.stop) h
    have h3 := congrArg (fun x => x.lon.start) h
    have h4 := congrArg (fun x => x.lon.stop) h
    simp [Bound.new] at h1 h2 h3 h4
    have la := min_le_left b.lat.start p.1
    have lb := le_max_left b.lat.stop p.1
    have lc := min_le_left b.lon.start p.2
    have ld := le_max_left b.lon.stop p.2
    rw [h1] at la; rw [h2] at lb; rw [h3] at lc; rw [h4] at ld
    have e1 : b.lat.start = 0 := le_antisymm (by linarith [hord.1]) (by linarith [hord.1])
    have e2 : b.lat.stop = 0 := le_antisymm lb (by linarith [hord.1, e1])
    have e3 : b.lon.start = 0 := le_antisymm (by linarith [hord.2]) (by linarith [hord.2])
    have e4 : b.lon.stop = 0 := le_antisymm ld (by linarith [hord.2, e3])
    cases b with
    | mk lat lon =>
      cases lat; cases lon
      simp only [Bound.new] at *
      simp_all
  · simp only [Bound.update, hemp, Bool.false_eq_true, if_false, Bound.ordered]
    exact ⟨le_trans (min_le_left _ _) (le_trans hord.1 (le_max_left _ _)),
           le_trans (min_le_left _ _) (le_trans hord.2 (le_max_left _ _))⟩
  · simp only [Bound.update, hemp, Bool.false_eq_true, if_false, Bound.inside]
    exact ⟨min_le_left _ _, le_max_left _ _, min_le_left _ _, le_max_left _ _⟩
  · simp only [Bound.update, hemp, Bool.false_eq_true, if_false, Bound.contains]
    exact ⟨min_le_right _ _, le_max_right _ _, min_le_right _ _, le_max_right _ _⟩

/-- Updating keeps the bound inside any ordered rectangle that already
contained it and contains the new point. -/
lemma Bound.update_inside {b r : Bound} (p : ℚ × ℚ)
    (hne : b ≠ Bound.new) (hbr : b.inside r) (hrp : r.contains p) :
    (b.update p).inside r := by
  have hemp : b.is_empty = false := by
    simp [Bound.is_empty, hne]
  simp only [Bound.update, hemp, Bool.false_eq_true, if_false, Bound.inside]
  exact ⟨le_min hbr.1 hrp.1, max_le hbr.2.1 hrp.2.1,
         le_min hbr.2.2.1 hrp.2.2.1, max_le hbr.2.2.2 hrp.2.2.2⟩

/-- Master lemma about folding `Bound.update` from a non-empty ordered
bound: the fold stays non-empty and ordered, only widens, contains every
folded point, and stays inside every rectangle containing the start bound
and all folded points. -/
lemma Bound.foldl_update_props (ps : List (ℚ × ℚ)) :
    ∀ b : Bound, b ≠ Bound.new → b.ordered →
      (ps.foldl Bound.update b ≠ Bound.new ∧
       (ps.foldl Bound.update b).ordered) ∧
      b.inside (ps.foldl Bound.update b) ∧
      (∀ p ∈ ps, (ps.foldl Bound.update b).contains p) ∧
      (∀ r : Bound, b.inside r → (∀ p ∈ ps, r.contains p) →
        (ps.foldl Bound.update b).inside r) := by
  induction ps with
  | nil =>
    intro b hne hord
    exact ⟨⟨hne, hord⟩, Bound.inside_refl b, by simp, fun r hbr _ => hbr⟩
  | cons p ps ih =>
    intro b hne hord
    have hup := Bound.update_nonempty p hne hord
    have ihb := ih (b.update p) hup.1 hup.2.1
    simp only [List.foldl_cons]
    refine ⟨ihb.1, Bound.inside_trans hup.2.2.1 ihb.2.1, ?_, ?_⟩
    · intro q hq
      rcases List.mem_cons.mp hq with h | h
      · subst h
        exact Bound.contains_of_inside ihb.2.1 hup.2.2.2
      · exact ihb.2.2.1 q h
    · intro r hbr hall
      have hrp : r.contains p := hall p (List.mem_cons_self p ps)
      exact ihb.2.2.2 r (Bound.update_inside p hne hbr hrp)
        (fun q hq => hall q (List.mem_cons_of_mem p hq))

/-- Updating the empty bound with `p` collapses both ranges to `p`. -/
lemma Bound.update_new (p : ℚ × ℚ) :
    Bound.new.update p = ⟨⟨p.1, p.1⟩, ⟨p.2, p.2⟩⟩ := by
  simp [Bound.update, Bound.is_empty]

lemma Bound.collapse_ne_new {p : ℚ × ℚ} (hp : p ≠ (0, 0)) :
    (⟨⟨p.1, p.1⟩, ⟨p.2, p.2⟩⟩ : Bound) ≠ Bound.new := by
  intro h
  apply hp
  have h1 := congrArg (fun x => x.lat.start) h
  have h2 := congrArg (fun x => x.lon.start) h
  simp [Bound.new] at h1 h2
  exact Prod.ext h1 h2

/-- C1 counterexample input: the point `(0,0)` observed first is absorbed by
the empty-state sentinel, and a later point resets the rectangle away from
it, so the final rectangle does not contain `(0,0)`. -/
theorem bound_fold_misses_origin :
    ¬ (([((0 : ℚ), (0 : ℚ)), ((5 : ℚ), (5 : ℚ))].foldl Bound.update
        Bound.new).contains ((0 : ℚ), (0 : ℚ))) := by
  decide

/-- C1 (amended): for every sequence of points whose first point is not
`(0,0)`, folding `Bound.update` from the empty bound yields a non-empty
rectangle that contains every point of the sequence, is inside every
rectangle containing all the points (i.e. is the smallest such axis-aligned
rectangle), and satisfies `lat.start ≤ lat.end` and `lon.start ≤ lon.end`. -/
theorem bound_fold_minimal (p0 : ℚ × ℚ) (ps : List (ℚ × ℚ))
    (h0 : p0 ≠ (0, 0)) :
    ((p0 :: ps).foldl Bound.update Bound.new) ≠ Bound.new ∧
    (∀ p ∈ p0 :: ps, ((p0 :: ps).foldl Bound.update Bound.new).contains p) ∧
    (∀ r : Bound, (∀ p ∈ p0 :: ps, r.contains p) →
      ((p0 :: ps).foldl Bound.update Bound.new).inside r) ∧
    ((p0 :: ps).foldl Bound.update Bound.new).ordered := by
  have hcol : Bound.new.update p0 = ⟨⟨p0.1, p0.1⟩, ⟨p0.2, p0.2⟩⟩ :=
    Bound.update_new p0
  have hne : Bound.new.update p0 ≠ Bound.new := by
    rw [hcol]; exact Bound.collapse_ne_new h0
  have hord : (Bound.new.update p0).ordered := by
    rw [hcol]; exact ⟨le_refl _, le_refl _⟩
  have hcont : (Bound.new.update p0).contains p0 := by
    rw [hcol]; exact ⟨le_refl _, le_refl _, le_refl _, le_refl _⟩
  have hfold := Bound.foldl_update_props ps (Bound.new.update p0) hne hord
  simp only [List.foldl_cons]
  refine ⟨hfold.1.1, ?_, ?_, hfold.1.2⟩
  · intro p hp
    rcases List.mem_cons.mp hp with h | h
    · subst h
      exact Bound.contains_of_inside hfold.2.1 hcont
    · exact hfold.2.2.1 p h
  · intro r hall
    have hrp0 : r.contains p0 := hall p0 (List.mem_cons_self p0 ps)
    have hbr : (Bound.new.update p0).inside r := by
      rw [hcol]
      exact ⟨hrp0.1, hrp0.2.1, hrp0.2.2.1, hrp0.2.2.2⟩
    exact hfold.2.2.2 r hbr (fun q hq => hall q (List.mem_cons_of_mem p0 hq))

/-- Witness for the amended C1 at the concrete input `[(1,2), (3,-1)]`. -/
theorem bound_fold_minimal_w :
    (((1, 2) : ℚ × ℚ) ≠ (0, 0)) ∧
    (([((1 : ℚ), (2 : ℚ)), ((3 : ℚ), (-1 : ℚ))].foldl Bound.update
        Bound.new) ≠ Bound.new ∧
     (∀ p ∈ [((1 : ℚ), (2 : ℚ)), ((3 : ℚ), (-1 : ℚ))],
        ([((1 : ℚ), (2 : ℚ)), ((3 : ℚ), (-1 : ℚ))].foldl Bound.update
          Bound.new).contains p) ∧
     (∀ r : Bound, (∀ p ∈ [((1 : ℚ), (2 : ℚ)), ((3 : ℚ), (-1 : ℚ))],
        r.contains p) →
        ([((1 : ℚ), (2 : ℚ)), ((3 : ℚ), (-1 : ℚ))].foldl Bound.update
          Bound.new).inside r) ∧
     ([((1 : ℚ), (2 : ℚ)), ((3 : ℚ), (-1 : ℚ))].foldl Bound.update
        Bound.new).ordered) :=
  ⟨by decide, bound_fold_minimal (1, 2) [(3, -1)] (by decide)⟩

/-- C2 counterexample: updating the fresh bound with the point `(0,0)` yields
a bound that is still reported empty — the sentinel empty state is not
distinguishable from a rectangle collapsed to `(0,0)`. -/
theorem bound_update_origin_still_empty :
    (Bound.new.update ((0 : ℚ), (0 : ℚ))).is_empty = true := by
  decide

/-- C2 (amended): after one `update p` on the fresh bound both ranges
collapse exactly to `p`'s coordinates, and for every `p ≠ (0,0)` the result
is no longer reported empty (for `p = (0,0)` the collapsed rectangle
coincides with the sentinel empty state, so `is_empty` stays true). -/
theorem bound_update_single (p : ℚ × ℚ) :
    Bound.new.update p = ⟨⟨p.1, p.1⟩, ⟨p.2, p.2⟩⟩ ∧
    (p ≠ (0, 0) → (Bound.new.update p).is_empty = false) := by
  refine ⟨Bound.update_new p, ?_⟩
  intro hp
  simp only [Bound.is_empty, decide_eq_false_iff_not]
  rw [Bound.update_new p]
  exact Bound.collapse_ne_new hp

/-- Witness for the amended C2 at the concrete point `(1,2)`. -/
theorem bound_update_single_w :
    Bound.new.update ((1 : ℚ), (2 : ℚ)) = ⟨⟨1, 1⟩, ⟨2, 2⟩⟩ ∧
    (Bound.new.update ((1 : ℚ), (2 : ℚ))).is_empty = false :=
  ⟨(bound_update_single (1, 2)).1, (bound_update_single (1, 2)).2 (by decide)⟩

/-- C10: `Bound.update` is idempotent — updating twice in succession with the
same point yields the same bound as updating once, for every bound state
(including the sentinel) and every point. -/
theorem bound_update_idem (b : Bound) (p : ℚ × ℚ) :
    (b.update p).update p = b.update p := by
  by_cases hb : b = Bound.new
  · subst hb
    rw [Bound.update_new p]
    by_cases hp : (⟨⟨p.1, p.1⟩, ⟨p.2, p.2⟩⟩ : Bound) = Bound.new
    · rw [hp, Bound.update_new p, hp]
    · have hemp : (⟨⟨p.1, p.1⟩, ⟨p.2, p.2⟩⟩ : Bound).is_empty = false := by
        simp [Bound.is_empty, hp]
      simp [Bound.update, hemp]
  · have hemp : b.is_empty = false := by simp [Bound.is_empty, hb]
    by_cases hb1 : b.update p = Bound.new
    · -- the widened bound landed exactly on the sentinel; then `p = (0,0)`
      -- and updating the sentinel with `(0,0)` reproduces the sentinel.
      have hlat : min b.lat.start p.1 = 0 ∧ max b.lat.stop p.1 = 0 ∧
          min b.lon.start p.2 = 0 ∧ max b.lon.stop p.2 = 0 := by
        have h1 := congrArg (fun x => x.lat.start) hb1
        have h2 := congrArg (fun x => x.lat.stop) hb1
        have h3 := congrArg (fun x => x.lon.start) hb1
        have h4 := congrArg (fun x => x.lon.stop) hb1
        simp only [Bound.update, hemp, Bool.false_eq_true, if_false,
          Bound.new] at h1 h2 h3 h4
        exact ⟨h1, h2, h3, h4⟩
      have hp1 : p.1 = 0 := by
        have ha := min_le_right b.lat.start p.1
        have hbx := le_max_right b.lat.stop p.1
        rw [hlat.1] at ha; rw [hlat.2.1] at hbx
        linarith
      have hp2 : p.2 = 0 := by
        have ha := min_le_right b.lon.start p.2
        have hbx := le_max_right b.lon.stop p.2
        rw [hlat.2.2.1] at ha; rw [hlat.2.2.2] at hbx
        linarith
      rw [hb1, Bound.update_new p, hp1, hp2]
      rfl
    · have hemp1 : (b.update p).is_empty = false := by
        simp [Bound.is_empty, hb1]
      simp only [Bound.update, hemp, Bool.false_eq_true, if_false] at hemp1 ⊢
      simp only [Bound.update, hemp1, Bool.false_eq_true, if_false]
      simp [min_assoc, max_assoc]

/-! ## The planar projection (main.rs lines 17, 186-192) -/

/-- Constant `SCALE` (main.rs line 17): `6371.0 * 100.0`. -/
noncomputable def SCALE : ℝ := 6371 * 100

/-- Function `project` (main.rs lines 190-192): arguments are in radians. -/
noncomputable def project (lat lon : ℝ) : ℝ × ℝ :=
  (lon * SCALE, Real.log (Real.tan (-lat / 2 + Real.pi / 4)) * SCALE)

/-- Degrees to radians, as Rust's `f64::to_radians`; used on the rational
degree coordinates of the data model. -/
noncomputable def degToRad (q : ℚ) : ℝ := (q : ℝ) * (Real.pi / 180)

lemma SCALE_pos : (0 : ℝ) < SCALE := by
  unfold SCALE; norm_num

/-- C4: `project` computes exactly `x = lon * SCALE` and
`y = ln (tan (-lat/2 + π/4)) * SCALE`, `SCALE` is the fixed constant
`6371 * 100`, and `project 0 0 = (0, 0)`. -/
theorem project_formula :
    (∀ lat lon : ℝ,
      project lat lon =
        (lon * SCALE, Real.log (Real.tan (-lat / 2 + Real.pi / 4)) * SCALE)) ∧
    SCALE = 6371 * 100 ∧
    project 0 0 = (0, 0) := by
  refine ⟨fun _ _ => rfl, rfl, ?_⟩
  unfold project
  norm_num [Real.tan_pi_div_four]

/-- C5: the y-component of `project` is strictly decreasing in latitude on
`(-π/2, π/2)`: for `a < b` in that interval and any longitude, the `y` for
`b` is strictly smaller than the `y` for `a`. -/
theorem project_y_strictAnti (a b lon : ℝ)
    (ha : -(Real.pi / 2) < a) (hab : a < b) (hb : b < Real.pi / 2) :
    (project b lon).2 < (project a lon).2 := by
  have hpi := Real.pi_pos
  have h1 : (0 : ℝ) < -b / 2 + Real.pi / 4 := by linarith
  have h2 : -b / 2 + Real.pi / 4 < -a / 2 + Real.pi / 4 := by linarith
  have h3 : -a / 2 + Real.pi / 4 < Real.pi / 2 := by linarith
  have hmemb : -b / 2 + Real.pi / 4 ∈
      Set.Ioo (-(Real.pi / 2)) (Real.pi / 2) := ⟨by linarith, by linarith⟩
  have hmema : -a / 2 + Real.pi / 4 ∈
      Set.Ioo (-(Real.pi / 2)) (Real.pi / 2) := ⟨by linarith, h3⟩
  have htanpos : 0 < Real.tan (-b / 2 + Real.pi / 4) :=
    Real.tan_pos_of_pos_of_lt_pi_div_two h1 (by linarith)
  have htan : Real.tan (-b / 2 + Real.pi / 4) <
      Real.tan (-a / 2 + Real.pi / 4) :=
    Real.strictMonoOn_tan hmemb hmema h2
  have hlog := Real.log_lt_log htanpos htan
  exact mul_lt_mul_of_pos_right hlog SCALE_pos

/-- Witness for C5 at the concrete latitudes `0 < 1` and longitude `0`. -/
theorem project_y_strictAnti_w : (project 1 0).2 < (project 0 0).2 :=
  project_y_strictAnti 0 1 0 (by linarith [Real.pi_pos])
    (by norm_num) (by linarith [Real.pi_gt_three])

/-! ## The OSM data model, at the interface used by main.rs

The `osmpbfreader` objects are modelled with exactly the fields the program
reads: node coordinates (exact decimicro-degree rationals), way node-id
lists, relation member lists, identifiers and tag maps.  The `BTreeMap<OsmId,
OsmObj>` produced by `get_objs_and_deps` keys every object by its typed id,
so it is modelled as three partial maps, one per object kind. -/

/-- Tag maps: association lists with unique keys; `tags.get(k)` in the
source is `List.lookup`. -/
abbrev Tags := List (String × String)

/-- A node at the interface used by the program: its id and its
`lat()`/`lon()` coordinates in degrees. -/
structure Node where
  id : Int
  lat : ℚ
  lon : ℚ
deriving DecidableEq

/-- A way: id, tags, and the ordered list of its node ids. -/
structure Way where
  id : Int
  tags : Tags
  nodes : List Int
deriving DecidableEq

/-- A typed object identifier, as `osmpbfreader::OsmId`. -/
inductive OsmId where
  | node (id : Int)
  | way (id : Int)
  | relation (id : Int)
deriving DecidableEq

/-- A relation member reference; the program only reads `.member`. -/
structure Ref where
  member : OsmId
deriving DecidableEq

/-- A relation: id, tags, and its ordered member list `refs`. -/
structure Relation where
  id : Int
  tags : Tags
  refs : List Ref
deriving DecidableEq

/-- An OSM object, as `osmpbfreader::OsmObj`. -/
inductive OsmObj where
  | node (n : Node)
  | way (w : Way)
  | relation (r : Relation)
deriving DecidableEq

/-- The resolved object store (`BTreeMap<OsmId, OsmObj>` in the source): a
partial map per object kind, reflecting that each typed key maps to an
object of its own kind (which the source relies on via `.node().unwrap()`
etc.). -/
structure Store where
  node : Int → Option Node
  way : Int → Option Way
  rel : Int → Option Relation

/-- Lookup `objs.get(&id)` on the typed map. -/
def storeGet (objs : Store) : OsmId → Option OsmObj
  | OsmId.node i => (objs.node i).map OsmObj.node
  | OsmId.way i => (objs.way i).map OsmObj.way
  | OsmId.relation i => (objs.rel i).map OsmObj.relation

/-- One stderr diagnostic line of main.rs. -/
inductive Diag where
  | nodeNotFound (n : Int)
  | refNotFound (m : OsmId) (rel : Int)
  | relationNotFound (r : Int)
  | wayNotFound (w : Int)
deriving DecidableEq

/-! ## Style resolution (main.rs lines 179-184) -/

/-- The value begins with the character `#`, as Rust's
`s.starts_with('#')`. -/
def startsWithHash (s : String) : Bool :=
  match s.data with
  | [] => false
  | c :: _ => c = '#'

/-- Function `set_stroke` (main.rs lines 179-184), reduced to the attribute it
assigns: `tags.get("colour").filter(|s| s.starts_with('#'))`.  `some c`
means the element gets the stroke override `c`; `none` means no stroke
attribute is assigned. -/
def set_stroke (tags : Tags) : Option String :=
  match tags.lookup ("colour") with
  | some c => if startsWithHash c then some c else none
  | none => none

/-- C8: the stroke override is attached iff the tag key `colour` is present
with a value beginning with `#`; the attached value is the tag value itself,
and no other tag influences the result. -/
theorem set_stroke_spec :
    (∀ (tags : Tags) (c : String),
      set_stroke tags = some c ↔
        tags.lookup ("colour") = some c ∧ startsWithHash c = true) ∧
    (∀ t t' : Tags, t.lookup ("colour") = t'.lookup ("colour") →
      set_stroke t = set_stroke t') := by
  constructor
  · intro tags c
    unfold set_stroke
    cases h : tags.lookup ("colour") with
    | none => simp
    | some v =>
      by_cases hv : startsWithHash v = true
      · simp only [hv, if_true]
        constructor
        · intro h'
          have hvc : v = c := Option.some.inj h'
          subst hvc
          exact ⟨rfl, hv⟩
        · intro hyp
          have hvc : v = c := Option.some.inj hyp.1
          subst hvc
          rfl
      · simp only [Bool.not_eq_true] at hv
        simp only [hv, Bool.false_eq_true, if_false]
        constructor
        · intro h'
          cases h'
        · intro hyp
          have hvc : v = c := Option.some.inj hyp.1
          subst hvc
          rw [hv] at hyp
          exact Bool.noConfusion hyp.2
  · intro t t' h
    unfold set_stroke
    rw [h]

/-- Witness for C8: the three concrete examples of the spec. -/
theorem set_stroke_spec_w :
    set_stroke [(("colour"), ("#ff0000"))] = some ("#ff0000") ∧
    set_stroke [(("colour"), ("red"))] = none ∧
    set_stroke [] = none := by
  refine ⟨(set_stroke_spec.1 _ _).mpr ⟨?_, ?_⟩, ?_, ?_⟩
  · decide
  · decide
  · decide
  · decide

/-! ## Rendering a way (main.rs lines 156-177) -/

/-- An SVG path command; the source only ever emits `move_to` and `line_to`
commands, and never closes a path. -/
inductive PathCmd where
  | move (p : ℝ × ℝ)
  | line (p : ℝ × ℝ)

/-- A rendered SVG element: a path (leaf) or a group (container). -/
inductive Element where
  | path (id : Int) (stroke : Option String) (fill : String)
      (data : List PathCmd)
  | group (id : Int) (stroke : Option String) (children : List Element)

/-- Function `project_node` (main.rs lines 186-188). -/
noncomputable def projectNode (n : Node) : ℝ × ℝ :=
  project (degToRad n.lat) (degToRad n.lon)

/-- The coordinate pair passed to `Bound::update` for a node. -/
def nodeCoords (n : Node) : ℚ × ℚ := (n.lat, n.lon)

/-- The loop of `way_to_path` (main.rs lines 158-172), threading the path
data built so far (`first` tells whether the next found node starts the
path), the bound, and the emitted diagnostics. -/
noncomputable def renderNodes (objs : Store) :
    Bool → Bound → List Int → List PathCmd × Bound × List Diag
  | _, b, [] => ([], b, [])
  | first, b, n :: ns =>
    match objs.node n with
    | some nd =>
      let cmd := if first then PathCmd.move (projectNode nd)
                 else PathCmd.line (projectNode nd)
      let rest := renderNodes objs false (b.update (nodeCoords nd)) ns
      (cmd :: rest.1, rest.2.1, rest.2.2)
    | none =>
      let rest := renderNodes objs first b ns
      (rest.1, rest.2.1, Diag.nodeNotFound n :: rest.2.2)

/-- Function `way_to_path` (main.rs lines 156-177): returns the path element, the
updated bound, and the diagnostics, in emission order. -/
noncomputable def wayToPath (objs : Store) (b : Bound) (w : Way) :
    Element × Bound × List Diag :=
  let r := renderNodes objs true b w.nodes
  (Element.path w.id (set_stroke w.tags) ("none") r.1, r.2.1, r.2.2)

/-- The projected polyline of a resolved node list: a move to the first
point followed by line segments, never closed. -/
noncomputable def moveThenLines : List Node → List PathCmd
  | [] => []
  | nd :: rest =>
    PathCmd.move (projectNode nd) ::
      rest.map (fun m => PathCmd.line (projectNode m))

/-- One `node ... not found` diagnostic per node id absent from the store,
in way order. -/
def wayDiags (objs : Store) (ns : List Int) : List Diag :=
  ns.filterMap (fun n =>
    match objs.node n with
    | some _ => none
    | none => some (Diag.nodeNotFound n))

/-- The nodes of the list that resolve in the store, in order, duplicates
preserved. -/
def resolvedNodes (objs : Store) (ns : List Int) : List Node :=
  ns.filterMap objs.node

lemma renderNodes_eq (objs : Store) (ns : List Int) :
    ∀ (first : Bool) (b : Bound),
      renderNodes objs first b ns =
        ((if first then moveThenLines (resolvedNodes objs ns)
          else (resolvedNodes objs ns).map
            (fun m => PathCmd.line (projectNode m))),
         ((resolvedNodes objs ns).map nodeCoords).foldl Bound.update b,
         wayDiags objs ns) := by
  induction ns with
  | nil =>
    intro first b
    cases first <;> simp [renderNodes, resolvedNodes, wayDiags, moveThenLines]
  | cons n ns ih =>
    intro first b
    cases h : objs.node n with
    | some nd =>
      have hres : resolvedNodes objs (n :: ns) =
          nd :: resolvedNodes objs ns := by
        simp [resolvedNodes, h]
      have hd : wayDiags objs (n :: ns) = wayDiags objs ns := by
        simp [wayDiags, h]
      simp only [renderNodes, h, ih false (b.update (nodeCoords nd)),
        hres, hd, List.map_cons, List.foldl_cons]
      cases first <;> simp [moveThenLines]
    | none =>
      have hres : resolvedNodes objs (n :: ns) = resolvedNodes objs ns := by
        simp [resolvedNodes, h]
      have hd : wayDiags objs (n :: ns) =
          Diag.nodeNotFound n :: wayDiags objs ns := by
        simp [wayDiags, h]
      simp only [renderNodes, h, ih first b, hres, hd]

/-- Full decomposition of `way_to_path` into its three outputs. -/
lemma wayToPath_decomp (objs : Store) (b : Bound) (w : Way) :
    wayToPath objs b w =
      (Element.path w.id (set_stroke w.tags) ("none")
        (moveThenLines (resolvedNodes objs w.nodes)),
       ((resolvedNodes objs w.nodes).map nodeCoords).foldl Bound.update b,
       wayDiags objs w.nodes) := by
  unfold wayToPath
  rw [renderNodes_eq objs w.nodes true b]
  simp

/-- The rendered path element does not depend on the incoming bound. -/
lemma wayToPath_fst (objs : Store) (b b' : Bound) (w : Way) :
    (wayToPath objs b w).1 = (wayToPath objs b' w).1 := by
  rw [wayToPath_decomp, wayToPath_decomp]

/-- The way diagnostics do not depend on the incoming bound. -/
lemma wayToPath_diags (objs : Store) (b b' : Bound) (w : Way) :
    (wayToPath objs b w).2.2 = (wayToPath objs b' w).2.2 := by
  rw [wayToPath_decomp, wayToPath_decomp]

/-- C6: `way_to_path` returns a path element carrying the way's id and fill
`"none"` (and the resolved stroke override), whose point sequence is exactly
the projected coordinates of the node references present in the store, in
stored order with duplicates preserved, the first resolved point a move and
every later one a line (never closed); the bound is widened with exactly the
resolved coordinates in order, and each absent node reference yields one
diagnostic (a way with zero resolved nodes yields an empty path). -/
theorem way_to_path_spec (objs : Store) (b : Bound) (w : Way) :
    wayToPath objs b w =
      (Element.path w.id (set_stroke w.tags) ("none")
        (moveThenLines (resolvedNodes objs w.nodes)),
       ((resolvedNodes objs w.nodes).map nodeCoords).foldl Bound.update b,
       wayDiags objs w.nodes) :=
  wayToPath_decomp objs b w

/-! ## Rendering a relation (main.rs lines 140-154)

`relation_to_group` recurses through the store's reference graph, which may
be cyclic, so the embedding takes an explicit fuel parameter: the result is
`none` when the recursion does not complete within the given fuel.  The
member loop is factored into `relRefs`, parametrised by the function used
for nested relation members. -/

/-- The member loop of `relation_to_group` (main.rs lines 142-152):
processes the refs in order, collecting children, threading the bound, and
emitting diagnostics; `recur` renders nested relation members. -/
noncomputable def relRefs (objs : Store)
    (recur : Bound → Relation → Option (Element × Bound × List Diag))
    (relId : Int) (b : Bound) :
    List Ref → Option (List Element × Bound × List Diag)
  | [] => some ([], b, [])
  | m :: rest =>
    match storeGet objs m.member with
    | none =>
      match relRefs objs recur relId b rest with
      | none => none
      | some (cs, b2, ds) => some (cs, b2, Diag.refNotFound m.member relId :: ds)
    | some (OsmObj.node _) => relRefs objs recur relId b rest
    | some (OsmObj.way w) =>
      let r := wayToPath objs b w
      match relRefs objs recur relId r.2.1 rest with
      | none => none
      | some (cs, b2, ds2) => some (r.1 :: cs, b2, r.2.2 ++ ds2)
    | some (OsmObj.relation rl) =>
      match recur b rl with
      | none => none
      | some (g, b1, ds1) =>
        match relRefs objs recur relId b1 rest with
        | none => none
        | some (cs, b2, ds2) => some (g :: cs, b2, ds1 ++ ds2)

/-- Function `relation_to_group` (main.rs lines 140-154), with fuel. -/
noncomputable def relationToGroup (objs : Store) :
    Nat → Bound → Relation → Option (Element × Bound × List Diag)
  | 0, _, _ => none
  | fuel + 1, b, rel =>
    match relRefs objs (relationToGroup objs fuel) rel.id b rel.refs with
    | none => none
    | some (cs, b2, ds) =>
      some (Element.group rel.id (set_stroke rel.tags) cs, b2, ds)

/-- The child element a member contributes: nothing for a node member or a
member absent from the store, the rendered path for a way member, the
rendered group for a relation member. -/
noncomputable def memberChild (objs : Store)
    (recur : Bound → Relation → Option (Element × Bound × List Diag))
    (m : Ref) : Option Element :=
  match storeGet objs m.member with
  | none => none
  | some (OsmObj.node _) => none
  | some (OsmObj.way w) => some (wayToPath objs Bound.new w).1
  | some (OsmObj.relation rl) => Option.map (fun x => x.1) (recur Bound.new rl)

/-- The diagnostics a member contributes: one `ref ... not found` line
naming the member and the containing relation when absent, none for a node
member, and the nested diagnostics for way and relation members. -/
noncomputable def memberDiags (objs : Store)
    (recur : Bound → Relation → Option (Element × Bound × List Diag))
    (relId : Int) (m : Ref) : List Diag :=
  match storeGet objs m.member with
  | none => [Diag.refNotFound m.member relId]
  | some (OsmObj.node _) => []
  | some (OsmObj.way w) => (wayToPath objs Bound.new w).2.2
  | some (OsmObj.relation rl) =>
    match recur Bound.new rl with
    | some x => x.2.2
    | none => []

/-- Success, the rendered element, and the diagnostics of the member loop do
not depend on the incoming bound, provided the nested renderer has the same
property. -/
lemma relRefs_inv (objs : Store)
    (recur : Bound → Relation → Option (Element × Bound × List Diag))
    (relId : Int)
    (hrec : ∀ rl b b' g b2 ds, recur b rl = some (g, b2, ds) →
      ∃ b2', recur b' rl = some (g, b2', ds)) :
    ∀ (refs : List Ref) (b b' : Bound) (cs : List Element) (b2 : Bound)
      (ds : List Diag),
      relRefs objs recur relId b refs = some (cs, b2, ds) →
      ∃ b2', relRefs objs recur relId b' refs = some (cs, b2', ds) := by
  intro refs
  induction refs with
  | nil =>
    intro b b' cs b2 ds h
    simp only [relRefs, Option.some.injEq, Prod.mk.injEq] at h
    obtain ⟨h1, _, h3⟩ := h
    subst h1; subst h3
    exact ⟨b', rfl⟩
  | cons m rest ih =>
    intro b b' cs b2 ds h
    cases hlook : storeGet objs m.member with
    | none =>
      simp only [relRefs, hlook] at h
      cases hr : relRefs objs recur relId b rest with
      | none => rw [hr] at h; exact absurd h (by simp)
      | some y =>
        obtain ⟨cs', b2', ds'⟩ := y
        rw [hr] at h
        simp only [Option.some.injEq, Prod.mk.injEq] at h
        obtain ⟨h1, _, h3⟩ := h
        obtain ⟨b2'', hr'⟩ := ih b b' cs' b2' ds' hr
        refine ⟨b2'', ?_⟩
        simp only [relRefs, hlook, hr']
        rw [h1, h3]
    | some obj =>
      cases obj with
      | node n =>
        simp only [relRefs, hlook] at h
        obtain ⟨b2'', hr'⟩ := ih b b' cs b2 ds h
        refine ⟨b2'', ?_⟩
        simp only [relRefs, hlook, hr']
      | way w =>
        simp only [relRefs, hlook] at h
        cases hr : relRefs objs recur relId (wayToPath objs b w).2.1 rest with
        | none => rw [hr] at h; exact absurd h (by simp)
        | some y =>
          obtain ⟨cs', b2', ds2⟩ := y
          rw [hr] at h
          simp only [Option.some.injEq, Prod.mk.injEq] at h
          obtain ⟨h1, _, h3⟩ := h
          obtain ⟨b2'', hr'⟩ :=
            ih (wayToPath objs b w).2.1 (wayToPath objs b' w).2.1 cs' b2' ds2 hr
          refine ⟨b2'', ?_⟩
          simp only [relRefs, hlook, hr']
          rw [wayToPath_fst objs b' b w, wayToPath_diags objs b' b w, h1, h3]
      | relation rl =>
        simp only [relRefs, hlook] at h
        cases hrc : recur b rl with
        | none => rw [hrc] at h; exact absurd h (by simp)
        | some y =>
          obtain ⟨g, b1, ds1⟩ := y
          rw [hrc] at h
          simp only [Option.some.injEq] at h
          cases hr : relRefs objs recur relId b1 rest with
          | none => rw [hr] at h; exact absurd h (by simp)
          | some y2 =>
            obtain ⟨cs', b2', ds2⟩ := y2
            rw [hr] at h
            simp only [Option.some.injEq, Prod.mk.injEq] at h
            obtain ⟨h1, _, h3⟩ := h
            obtain ⟨b1', hrc'⟩ := hrec rl b b' g b1 ds1 hrc
            obtain ⟨b2'', hr'⟩ := ih b1 b1' cs' b2' ds2 hr
            refine ⟨b2'', ?_⟩
            simp only [relRefs, hlook, hrc', hr']
            rw [h1, h3]

/-- Success, the rendered group, and the diagnostics of `relation_to_group`
do not depend on the incoming bound. -/
lemma relationToGroup_inv (objs : Store) :
    ∀ (fuel : Nat) (rl : Relation) (b b' : Bound) (g : Element) (b2 : Bound)
      (ds : List Diag),
      relationToGroup objs fuel b rl = some (g, b2, ds) →
      ∃ b2', relationToGroup objs fuel b' rl = some (g, b2', ds) := by
  intro fuel
  induction fuel with
  | zero =>
    intro rl b b' g b2 ds h
    exact absurd h (by simp [relationToGroup])
  | succ fuel ih =>
    intro rl b b' g b2 ds h
    simp only [relationToGroup] at h
    cases hr : relRefs objs (relationToGroup objs fuel) rl.id b rl.refs with
    | none => rw [hr] at h; exact absurd h (by simp)
    | some y =>
      obtain ⟨cs, bb, dd⟩ := y
      rw [hr] at h
      simp only [Option.some.injEq, Prod.mk.injEq] at h
      obtain ⟨h1, _, h3⟩ := h
      obtain ⟨bb', hr'⟩ :=
        relRefs_inv objs (relationToGroup objs fuel) rl.id ih rl.refs b b'
          cs bb dd hr
      refine ⟨bb', ?_⟩
      simp only [relationToGroup, hr']
      rw [h1, h3]

/-- The member loop produces exactly the member children (in member order)
and the member diagnostics. -/
lemma relRefs_spec (objs : Store)
    (recur : Bound → Relation → Option (Element × Bound × List Diag))
    (relId : Int)
    (hrec : ∀ rl b b' g b2 ds, recur b rl = some (g, b2, ds) →
      ∃ b2', recur b' rl = some (g, b2', ds)) :
    ∀ (refs : List Ref) (b : Bound) (cs : List Element) (b2 : Bound)
      (ds : List Diag),
      relRefs objs recur relId b refs = some (cs, b2, ds) →
      cs = refs.filterMap (memberChild objs recur) ∧
      ds = (refs.map (memberDiags objs recur relId)).flatten := by
  intro refs
  induction refs with
  | nil =>
    intro b cs b2 ds h
    simp only [relRefs, Option.some.injEq, Prod.mk.injEq] at h
    obtain ⟨h1, _, h3⟩ := h
    subst h1; subst h3
    simp
  | cons m rest ih =>
    intro b cs b2 ds h
    cases hlook : storeGet objs m.member with
    | none =>
      simp only [relRefs, hlook] at h
      cases hr : relRefs objs recur relId b rest with
      | none => rw [hr] at h; exact absurd h (by simp)
      | some y =>
        obtain ⟨cs', b2', ds'⟩ := y
        rw [hr] at h
        simp only [Option.some.injEq, Prod.mk.injEq] at h
        obtain ⟨h1, _, h3⟩ := h
        obtain ⟨hc, hd⟩ := ih b cs' b2' ds' hr
        subst hc; subst hd
        constructor
        · rw [← h1]
          simp [memberChild, hlook]
        · rw [← h3]
          simp [memberDiags, hlook]
    | some obj =>
      cases obj with
      | node n =>
        simp only [relRefs, hlook] at h
        obtain ⟨hc, hd⟩ := ih b cs b2 ds h
        subst hc; subst hd
        constructor
        · simp [memberChild, hlook]
        · simp [memberDiags, hlook]
      | way w =>
        simp only [relRefs, hlook] at h
        cases hr : relRefs objs recur relId (wayToPath objs b w).2.1 rest with
        | none => rw [hr] at h; exact absurd h (by simp)
        | some y =>
          obtain ⟨cs', b2', ds2⟩ := y
          rw [hr] at h
          simp only [Option.some.injEq, Prod.mk.injEq] at h
          obtain ⟨h1, _, h3⟩ := h
          obtain ⟨hc, hd⟩ := ih (wayToPath objs b w).2.1 cs' b2' ds2 hr
          subst hc; subst hd
          constructor
          · rw [← h1]
            simp only [List.filterMap_cons, memberChild, hlook]
            rw [wayToPath_fst objs Bound.new b w]
          · rw [← h3]
            simp only [List.map_cons, List.flatten_cons, memberDiags, hlook]
            rw [wayToPath_diags objs Bound.new b w]
      | relation rl =>
        simp only [relRefs, hlook] at h
        cases hrc : recur b rl with
        | none => rw [hrc] at h; exact absurd h (by simp)
        | some y =>
          obtain ⟨g, b1, ds1⟩ := y
          rw [hrc] at h
          simp only [Option.some.injEq] at h
          cases hr : relRefs objs recur relId b1 rest with
          | none => rw [hr] at h; exact absurd h (by simp)
          | some y2 =>
            obtain ⟨cs', b2', ds2⟩ := y2
            rw [hr] at h
            simp only [Option.some.injEq, Prod.mk.injEq] at h
            obtain ⟨h1, _, h3⟩ := h
            obtain ⟨b1', hrc'⟩ := hrec rl b Bound.new g b1 ds1 hrc
            obtain ⟨hc, hd⟩ := ih b1 cs' b2' ds2 hr
            subst hc; subst hd
            constructor
            · rw [← h1]
              simp [List.filterMap_cons, memberChild, hlook, hrc']
            · rw [← h3]
              simp only [List.map_cons, List.flatten_cons, memberDiags,
                hlook, hrc']

/-- C7: whenever `relation_to_group` completes on a relation, the returned
group carries the relation's identifier (and resolved stroke override), its
children are exactly the renderings of the relation's way members (paths)
and relation members (nested groups) present in the store, in stored member
order, node members contribute nothing, and its diagnostics are exactly the
nested members' diagnostics plus one `ref ... not found` line naming the
member and the containing relation for each member absent from the store. -/
theorem relation_to_group_spec (objs : Store) (fuel : Nat) (b : Bound)
    (rel : Relation) (g : Element) (b2 : Bound) (ds : List Diag)
    (h : relationToGroup objs (fuel + 1) b rel = some (g, b2, ds)) :
    g = Element.group rel.id (set_stroke rel.tags)
        (rel.refs.filterMap (memberChild objs (relationToGroup objs fuel))) ∧
    ds = (rel.refs.map
        (memberDiags objs (relationToGroup objs fuel) rel.id)).flatten := by
  simp only [relationToGroup] at h
  cases hr : relRefs objs (relationToGroup objs fuel) rel.id b rel.refs with
  | none => rw [hr] at h; exact absurd h (by simp)
  | some y =>
    obtain ⟨cs, bb, dd⟩ := y
    rw [hr] at h
    simp only [Option.some.injEq, Prod.mk.injEq] at h
    obtain ⟨h1, _, h3⟩ := h
    obtain ⟨hc, hd⟩ :=
      relRefs_spec objs (relationToGroup objs fuel) rel.id
        (relationToGroup_inv objs fuel) rel.refs b cs bb dd hr
    subst hc; subst hd
    exact ⟨h1.symm, h3.symm⟩

/-- Witness store for the relation renderer: node `7` present, way `9`
absent, relation `1` with a node member and a way member. -/
def node7 : Node := ⟨7, 0, 0⟩

def rel1 : Relation := ⟨1, [], [⟨OsmId.node 7⟩, ⟨OsmId.way 9⟩]⟩

def store2 : Store :=
  ⟨fun i => if i = 7 then some node7 else none,
   fun _ => none,
   fun i => if i = 1 then some rel1 else none⟩

/-- Witness for C7 on `store2`: the node member is silently ignored and the
absent way member yields exactly one diagnostic naming it and relation 1. -/
theorem relation_to_group_spec_w :
    Element.group 1 none [] =
      Element.group rel1.id (set_stroke rel1.tags)
        (rel1.refs.filterMap (memberChild store2 (relationToGroup store2 0))) ∧
    [Diag.refNotFound (OsmId.way 9) 1] =
      (rel1.refs.map
        (memberDiags store2 (relationToGroup store2 0) rel1.id)).flatten :=
  relation_to_group_spec store2 0 Bound.new rel1 (Element.group 1 none [])
    Bound.new [Diag.refNotFound (OsmId.way 9) 1] rfl

/-! ## The top-level render pass and the viewport (main.rs lines 92-135) -/

/-- The requested-relations loop of `main` (main.rs lines 99-109): a missing
requested relation yields a `relation ... not found` diagnostic, a found one
is rendered by `recur` (i.e. `relation_to_group`). -/
noncomputable def renderRels (objs : Store)
    (recur : Bound → Relation → Option (Element × Bound × List Diag))
    (b : Bound) : List Int → Option (List Element × Bound × List Diag)
  | [] => some ([], b, [])
  | rid :: rest =>
    match objs.rel rid with
    | some rl =>
      match recur b rl with
      | none => none
      | some (g, b1, ds1) =>
        match renderRels objs recur b1 rest with
        | none => none
        | some (es, b2, ds2) => some (g :: es, b2, ds1 ++ ds2)
    | none =>
      match renderRels objs recur b rest with
      | none => none
      | some (es, b2, ds2) => some (es, b2, Diag.relationNotFound rid :: ds2)

/-- The requested-ways loop of `main` (main.rs lines 110-116). -/
noncomputable def renderWays (objs : Store) (b : Bound) :
    List Int → List Element × Bound × List Diag
  | [] => ([], b, [])
  | wid :: rest =>
    match objs.way wid with
    | some w =>
      let r := wayToPath objs b w
      let rr := renderWays objs r.2.1 rest
      (r.1 :: rr.1, rr.2.1, r.2.2 ++ rr.2.2)
    | none =>
      let rr := renderWays objs b rest
      (rr.1, rr.2.1, Diag.wayNotFound wid :: rr.2.2)

/-- Both loops of `main`, from the fresh bound: requested relations first,
then requested ways. -/
noncomputable def renderAll (objs : Store) (fuel : Nat)
    (rels ways : List Int) : Option (List Element × Bound × List Diag) :=
  match renderRels objs (relationToGroup objs fuel) Bound.new rels with
  | none => none
  | some (es1, b1, ds1) =>
    let rw := renderWays objs b1 ways
    some (es1 ++ rw.1, rw.2.1, ds1 ++ rw.2.2)

/-- The viewport computation of `main` (main.rs lines 118-130): nothing when
the bound is empty, else origin `upper_left` and size
`lower_right - upper_left`. -/
noncomputable def finalizeViewport (b : Bound) : Option (ℝ × ℝ × ℝ × ℝ) :=
  if b.is_empty then none
  else
    let ul := project (degToRad b.lat.stop) (degToRad b.lon.start)
    let lr := project (degToRad b.lat.start) (degToRad b.lon.stop)
    some (ul.1, ul.2, lr.1 - ul.1, lr.2 - ul.2)

/-- The assembled output document: the rendered top-level elements, the
optional `viewBox`, and the collected diagnostics. -/
structure Document where
  elements : List Element
  viewport : Option (ℝ × ℝ × ℝ × ℝ)
  diags : List Diag

/-- Function `main`'s render pass (main.rs lines 92-135), document assembly
included. -/
noncomputable def mainRender (objs : Store) (fuel : Nat)
    (rels ways : List Int) : Option Document :=
  match renderAll objs fuel rels ways with
  | none => none
  | some (es, b, ds) => some ⟨es, finalizeViewport b, ds⟩

/-- C3: after the render pass, the document has no viewport when the
accumulated bound is empty; otherwise the viewport origin is
`project(bound.lat.end, bound.lon.start)` (in radians) and its width and
height are `project(bound.lat.start, bound.lon.end)` minus the origin,
component-wise. -/
theorem viewport_spec (objs : Store) (fuel : Nat) (rels ways : List Int)
    (es : List Element) (b : Bound) (ds : List Diag) (doc : Document)
    (h1 : renderAll objs fuel rels ways = some (es, b, ds))
    (h2 : mainRender objs fuel rels ways = some doc) :
    (b.is_empty = true → doc.viewport = none) ∧
    (b.is_empty = false →
      doc.viewport =
        some ((project (degToRad b.lat.stop) (degToRad b.lon.start)).1,
              (project (degToRad b.lat.stop) (degToRad b.lon.start)).2,
              (project (degToRad b.lat.start) (degToRad b.lon.stop)).1 -
                (project (degToRad b.lat.stop) (degToRad b.lon.start)).1,
              (project (degToRad b.lat.start) (degToRad b.lon.stop)).2 -
                (project (degToRad b.lat.stop) (degToRad b.lon.start)).2)) := by
  simp only [mainRender, h1] at h2
  have hdoc : doc = ⟨es, finalizeViewport b, ds⟩ := (Option.some.inj h2).symm
  subst hdoc
  constructor
  · intro hemp
    simp [finalizeViewport, hemp]
  · intro hemp
    simp [finalizeViewport, hemp]

/-- The empty store. -/
def store0 : Store := ⟨fun _ => none, fun _ => none, fun _ => none⟩

/-- Witness for C3 on the empty render pass: the bound stays empty and no
viewport is set. -/
theorem viewport_spec_w :
    (Bound.new.is_empty = true →
      (Document.mk [] none [] : Document).viewport = none) ∧
    (Bound.new.is_empty = false →
      (Document.mk [] none [] : Document).viewport =
        some ((project (degToRad Bound.new.lat.stop)
                (degToRad Bound.new.lon.start)).1,
              (project (degToRad Bound.new.lat.stop)
                (degToRad Bound.new.lon.start)).2,
              (project (degToRad Bound.new.lat.start)
                (degToRad Bound.new.lon.stop)).1 -
                (project (degToRad Bound.new.lat.stop)
                  (degToRad Bound.new.lon.start)).1,
              (project (degToRad Bound.new.lat.start)
                (degToRad Bound.new.lon.stop)).2 -
                (project (degToRad Bound.new.lat.stop)
                  (degToRad Bound.new.lon.start)).2)) :=
  viewport_spec store0 1 [] [] [] Bound.new [] ⟨[], none, []⟩ rfl rfl

/-! ## Termination of the recursive render pass (C9)

`relation_to_group` recurses along the relation-membership reference graph.
With the fuel embedding, termination of the original recursion is the
existence of a fuel on which the computation completes. -/

/-- More fuel never changes a completed member loop. -/
lemma relRefs_mono (objs : Store)
    (recur recur' : Bound → Relation → Option (Element × Bound × List Diag))
    (relId : Int)
    (hmono : ∀ b rl x, recur b rl = some x → recur' b rl = some x) :
    ∀ (refs : List Ref) (b : Bound) (y : List Element × Bound × List Diag),
      relRefs objs recur relId b refs = some y →
      relRefs objs recur' relId b refs = some y := by
  intro refs
  induction refs with
  | nil =>
    intro b y h
    simp only [relRefs] at h ⊢
    exact h
  | cons m rest ih =>
    intro b y h
    cases hlook : storeGet objs m.member with
    | none =>
      simp only [relRefs, hlook] at h ⊢
      cases hr : relRefs objs recur relId b rest with
      | none => rw [hr] at h; exact absurd h (by simp)
      | some y2 =>
        rw [hr] at h
        rw [ih b y2 hr]
        exact h
    | some obj =>
      cases obj with
      | node n =>
        simp only [relRefs, hlook] at h ⊢
        exact ih b y h
      | way w =>
        simp only [relRefs, hlook] at h ⊢
        cases hr : relRefs objs recur relId (wayToPath objs b w).2.1 rest with
        | none => rw [hr] at h; exact absurd h (by simp)
        | some y2 =>
          rw [hr] at h
          rw [ih (wayToPath objs b w).2.1 y2 hr]
          exact h
      | relation rl =>
        simp only [relRefs, hlook] at h ⊢
        cases hrc : recur b rl with
        | none => rw [hrc] at h; exact absurd h (by simp)
        | some x1 =>
          obtain ⟨g, b1, ds1⟩ := x1
          rw [hrc] at h
          rw [hmono b rl (g, b1, ds1) hrc]
          simp only [Option.some.injEq] at h ⊢
          cases hr : relRefs objs recur relId b1 rest with
          | none => rw [hr] at h; exact absurd h (by simp)
          | some y2 =>
            rw [hr] at h
            rw [ih b1 y2 hr]
            exact h

/-- One-step unfolding of `relationToGroup` at successor fuel. -/
lemma relationToGroup_succ (objs : Store) (fuel : Nat) (b : Bound)
    (rel : Relation) :
    relationToGroup objs (fuel + 1) b rel =
      match relRefs objs (relationToGroup objs fuel) rel.id b rel.refs with
      | none => none
      | some (cs, b2, ds) =>
        some (Element.group rel.id (set_stroke rel.tags) cs, b2, ds) := rfl

/-- More fuel never changes a completed `relation_to_group`. -/
lemma relationToGroup_mono (objs : Store) :
    ∀ (fuel : Nat) (b : Bound) (rl : Relation)
      (x : Element × Bound × List Diag),
      relationToGroup objs fuel b rl = some x →
      relationToGroup objs (fuel + 1) b rl = some x := by
  intro fuel
  induction fuel with
  | zero =>
    intro b rl x h
    exact absurd h (by simp [relationToGroup])
  | succ fuel ih =>
    intro b rl x h
    rw [relationToGroup_succ] at h ⊢
    cases hr : relRefs objs (relationToGroup objs fuel) rl.id b rl.refs with
    | none => rw [hr] at h; exact absurd h (by simp)
    | some y =>
      rw [hr] at h
      rw [relRefs_mono objs (relationToGroup objs fuel)
        (relationToGroup objs (fuel + 1)) rl.id ih rl.refs b y hr]
      exact h

lemma relationToGroup_le_mono (objs : Store) {f1 f2 : Nat} (hle : f1 ≤ f2) :
    ∀ (b : Bound) (rl : Relation) (x : Element × Bound × List Diag),
      relationToGroup objs f1 b rl = some x →
      relationToGroup objs f2 b rl = some x := by
  induction f2, hle using Nat.le_induction with
  | base => exact fun b rl x h => h
  | succ n hn ih =>
    exact fun b rl x h => relationToGroup_mono objs n b rl x (ih b rl x h)

/-- Inversion: a relation object can only be found under a relation key. -/
lemma storeGet_relation {objs : Store} {mm : OsmId} {rl : Relation}
    (h : storeGet objs mm = some (OsmObj.relation rl)) :
    ∃ i, mm = OsmId.relation i ∧ objs.rel i = some rl := by
  cases mm with
  | node i => cases hn : objs.node i <;> simp [storeGet, hn] at h
  | way i => cases hn : objs.way i <;> simp [storeGet, hn] at h
  | relation i =>
    cases hn : objs.rel i with
    | none => simp [storeGet, hn] at h
    | some r' =>
      simp only [storeGet, hn, Option.map_some', Option.some.injEq] at h
      refine ⟨i, rfl, ?_⟩
      rw [hn]
      rw [OsmObj.relation.injEq] at h
      rw [h]

/-- If every relation member of the list can be rendered with some fuel,
the whole member loop completes with some fuel, from every bound. -/
lemma relRefs_total (objs : Store) (relId : Int) :
    ∀ refs : List Ref,
      (∀ m ∈ refs, ∀ rl : Relation,
        storeGet objs m.member = some (OsmObj.relation rl) →
        ∃ fuel, ∀ b, ∃ x, relationToGroup objs fuel b rl = some x) →
      ∃ fuel, ∀ b, ∃ y,
        relRefs objs (relationToGroup objs fuel) relId b refs = some y := by
  intro refs
  induction refs with
  | nil => exact fun _ => ⟨0, fun b => ⟨([], b, []), rfl⟩⟩
  | cons m rest ih =>
    intro hall
    obtain ⟨f1, h1⟩ := ih (fun m' hm' => hall m' (List.mem_cons_of_mem m hm'))
    cases hlook : storeGet objs m.member with
    | none =>
      refine ⟨f1, fun b => ?_⟩
      obtain ⟨y, hy⟩ := h1 b
      obtain ⟨cs, b2, ds⟩ := y
      exact ⟨(cs, b2, Diag.refNotFound m.member relId :: ds),
        by simp only [relRefs, hlook, hy]⟩
    | some obj =>
      cases obj with
      | node n =>
        refine ⟨f1, fun b => ?_⟩
        obtain ⟨y, hy⟩ := h1 b
        refine ⟨y, ?_⟩
        simp only [relRefs, hlook]
        exact hy
      | way w =>
        refine ⟨f1, fun b => ?_⟩
        obtain ⟨y, hy⟩ := h1 (wayToPath objs b w).2.1
        obtain ⟨cs, b2, ds2⟩ := y
        exact ⟨((wayToPath objs b w).1 :: cs, b2,
            (wayToPath objs b w).2.2 ++ ds2),
          by simp only [relRefs, hlook, hy]⟩
      | relation rl =>
        obtain ⟨f2, h2⟩ := hall m (List.mem_cons_self m rest) rl hlook
        refine ⟨max f1 f2, fun b => ?_⟩
        obtain ⟨x, hx⟩ := h2 b
        have hx' := relationToGroup_le_mono objs (le_max_right f1 f2) b rl x hx
        obtain ⟨g, b1, ds1⟩ := x
        obtain ⟨y, hy⟩ := h1 b1
        have hy' := relRefs_mono objs (relationToGroup objs f1)
          (relationToGroup objs (max f1 f2)) relId
          (fun b' rl' x' h' =>
            relationToGroup_le_mono objs (le_max_left f1 f2) b' rl' x' h')
          rest b1 y hy
        obtain ⟨cs, b2, ds2⟩ := y
        exact ⟨(g :: cs, b2, ds1 ++ ds2),
          by simp only [relRefs, hlook, hx', hy']⟩

/-- More fuel never changes a completed requested-relations loop. -/
lemma renderRels_mono (objs : Store)
    (recur recur' : Bound → Relation → Option (Element × Bound × List Diag))
    (hmono : ∀ b rl x, recur b rl = some x → recur' b rl = some x) :
    ∀ (rels : List Int) (b : Bound) (y : List Element × Bound × List Diag),
      renderRels objs recur b rels = some y →
      renderRels objs recur' b rels = some y := by
  intro rels
  induction rels with
  | nil =>
    intro b y h
    simp only [renderRels] at h ⊢
    exact h
  | cons rid rest ih =>
    intro b y h
    cases hrel : objs.rel rid with
    | none =>
      simp only [renderRels, hrel] at h ⊢
      cases hr : renderRels objs recur b rest with
      | none => rw [hr] at h; exact absurd h (by simp)
      | some y2 =>
        rw [hr] at h
        rw [ih b y2 hr]
        exact h
    | some rl =>
      simp only [renderRels, hrel] at h ⊢
      cases hrc : recur b rl with
      | none => rw [hrc] at h; exact absurd h (by simp)
      | some x1 =>
        obtain ⟨g, b1, ds1⟩ := x1
        rw [hrc] at h
        rw [hmono b rl (g, b1, ds1) hrc]
        simp only [Option.some.injEq] at h ⊢
        cases hr : renderRels objs recur b1 rest with
        | none => rw [hr] at h; exact absurd h (by simp)
        | some y2 =>
          rw [hr] at h
          rw [ih b1 y2 hr]
          exact h

/-- One step of the relation-membership reference graph: `rid` references
`rid'` through the store. -/
def relStep (objs : Store) (rid' rid : Int) : Prop :=
  ∃ rl m, objs.rel rid = some rl ∧ m ∈ rl.refs ∧ m.member = OsmId.relation rid'

/-- C9: when the relation-membership reference graph of the store is
well-founded (in particular for every finite acyclic store), every relation
of the store is rendered completely by `relation_to_group` with some finite
fuel — from any bound — and the whole render pass over any finite requested
sets completes with some finite fuel. -/
theorem render_terminates (objs : Store)
    (hwf : WellFounded (relStep objs)) :
    (∀ rid rl, objs.rel rid = some rl →
      ∃ fuel, ∀ b, ∃ x, relationToGroup objs fuel b rl = some x) ∧
    (∀ rels ways : List Int,
      ∃ fuel, ∃ y, renderAll objs fuel rels ways = some y) := by
  have main : ∀ rid rl, objs.rel rid = some rl →
      ∃ fuel, ∀ b, ∃ x, relationToGroup objs fuel b rl = some x := by
    intro rid
    induction rid using WellFounded.induction hwf with
    | _ rid ih =>
      intro rl hrl
      have hmem : ∀ m ∈ rl.refs, ∀ rl' : Relation,
          storeGet objs m.member = some (OsmObj.relation rl') →
          ∃ fuel, ∀ b, ∃ x, relationToGroup objs fuel b rl' = some x := by
        intro m hm rl' hlook
        obtain ⟨i, hmm, hreli⟩ := storeGet_relation hlook
        exact ih i ⟨rl, m, hrl, hm, hmm⟩ rl' hreli
      obtain ⟨f, hf⟩ := relRefs_total objs rl.id rl.refs hmem
      refine ⟨f + 1, fun b => ?_⟩
      obtain ⟨y, hy⟩ := hf b
      obtain ⟨cs, b2, ds⟩ := y
      exact ⟨(Element.group rl.id (set_stroke rl.tags) cs, b2, ds),
        by simp only [relationToGroup, hy]⟩
  refine ⟨main, ?_⟩
  intro rels ways
  have hrr : ∃ fuel, ∀ b, ∃ y,
      renderRels objs (relationToGroup objs fuel) b rels = some y := by
    induction rels with
    | nil => exact ⟨0, fun b => ⟨([], b, []), rfl⟩⟩
    | cons rid rest ih =>
      obtain ⟨f1, h1⟩ := ih
      cases hrel : objs.rel rid with
      | none =>
        refine ⟨f1, fun b => ?_⟩
        obtain ⟨y, hy⟩ := h1 b
        obtain ⟨es, b2, ds⟩ := y
        exact ⟨(es, b2, Diag.relationNotFound rid :: ds),
          by simp only [renderRels, hrel, hy]⟩
      | some rl =>
        obtain ⟨f2, h2⟩ := main rid rl hrel
        refine ⟨max f1 f2, fun b => ?_⟩
        obtain ⟨x, hx⟩ := h2 b
        have hx' := relationToGroup_le_mono objs (le_max_right f1 f2) b rl x hx
        obtain ⟨g, b1, ds1⟩ := x
        obtain ⟨y, hy⟩ := h1 b1
        have hy' := renderRels_mono objs (relationToGroup objs f1)
          (relationToGroup objs (max f1 f2))
          (fun b' rl' x' h' =>
            relationToGroup_le_mono objs (le_max_left f1 f2) b' rl' x' h')
          rest b1 y hy
        obtain ⟨es, b2, ds2⟩ := y
        exact ⟨(g :: es, b2, ds1 ++ ds2),
          by simp only [renderRels, hrel, hx', hy']⟩
  obtain ⟨f, hf⟩ := hrr
  obtain ⟨y, hy⟩ := hf Bound.new
  obtain ⟨es, b1, ds1⟩ := y
  exact ⟨f, ((es ++ (renderWays objs b1 ways).1,
      (renderWays objs b1 ways).2.1, ds1 ++ (renderWays objs b1 ways).2.2)),
    by simp only [renderAll, hy]⟩

/-- Witness for C9 on `store2`, whose reference graph has no
relation-to-relation edge at all, hence is well-founded. -/
theorem render_terminates_w :
    (∃ fuel, ∀ b, ∃ x, relationToGroup store2 fuel b rel1 = some x) ∧
    (∃ fuel, ∃ y, renderAll store2 fuel [1] [] = some y) := by
  have hnostep : ∀ y x, ¬ relStep store2 y x := by
    rintro y x ⟨rl, m, hrel, hm, hmm⟩
    by_cases hx : x = (1 : Int)
    · subst hx
      have hrl : rl = rel1 := by
        simp only [store2, if_true] at hrel
        exact (Option.some.inj hrel).symm
      subst hrl
      simp only [rel1, List.mem_cons, List.mem_singleton] at hm
      rcases hm with hm | hm
      · subst hm; exact OsmId.noConfusion hmm
      · rcases hm with hm | hm
        · subst hm; exact OsmId.noConfusion hmm
        · exact absurd hm (List.not_mem_nil m)
    · simp only [store2, hx, if_false] at hrel
      exact Option.noConfusion hrel
  have hwf : WellFounded (relStep store2) :=
    ⟨fun a => Acc.intro a (fun y h => absurd h (hnostep y a))⟩
  exact ⟨(render_terminates store2 hwf).1 1 rel1 (by simp [store2]),
    (render_terminates store2 hwf).2 [1] []⟩

end OsmSvg
